import Mathlib

/-!
Verification of the sqlite storage engine for the peerlinks message DAG.

The development shallowly embeds `src/lib/storage.js`:

* byte blobs (nodejs `Buffer`s) are `List Nat`, each entry a byte value;
* the `messages` and `parents` tables are lists of rows, with the sqlite
  `REPLACE INTO` upsert (both tables have `PRIMARY KEY(hash)`) modelled by
  removing any row with the same hash before inserting the new one;
* the hash-list codec is translated function by function; the `throw` in
  `encodeHashList` becomes an `Option` result;
* query result sets (`SELECT .. WHERE .. ORDER BY .. LIMIT n`) are modelled
  as `take n` of `List.insertionSort` of `List.filter`, with sqlite's blob
  comparison (bytewise memcmp, ties broken by length) spelled out as `blobLe`.
-/

namespace PeerlinksStorage

/-- A byte string (the contents of a nodejs `Buffer`); each entry is one byte. -/
abbrev Bytes := List Nat

/-! ## Hash-list codec (`encodeHashList` / `decodeHashList` in storage.js) -/

/-- `encodeHashList(list)`: the source first scans the whole list and throws
`Invalid hash` as soon as one element is longer than `0xff` bytes, then writes
one record `(1-byte length, raw bytes)` per element into a fresh buffer.
The throw is modelled as `none`; no buffer exists in that case. -/
def encodeHashList (list : List Bytes) : Option Bytes :=
  if list.all (fun elem => elem.length ≤ 255) then
    some ((list.map (fun elem => elem.length :: elem)).flatten)
  else
    none

/-- The loop of `decodeHashList(data)`: read the length byte, slice out that
many bytes (a nodejs `slice` clamps at the end of the buffer, exactly like
`List.take`), advance, repeat while bytes remain.  The loop consumes at least
one byte per iteration, so `data.length` steps of fuel make the recursion
structural; the fuel is never exhausted when it starts at `data.length`. -/
def decodeHashListGo : Nat → Bytes → List Bytes
  | _, [] => []
  | 0, _ :: _ => []
  | fuel + 1, len :: rest => rest.take len :: decodeHashListGo fuel (rest.drop len)

/-- `decodeHashList(data)` from storage.js. -/
def decodeHashList (data : Bytes) : List Bytes :=
  decodeHashListGo data.length data

/-- Instrumentation of the `decodeHashList` loop: the list of buffer indices the
source actually reads, in order.  Each iteration reads `data[offset]` (the
length byte) and then the bytes `offset+1 .. offset+len` that `slice` copies,
clamped at the end of the buffer exactly as `Buffer.slice` clamps.  The fuel
argument plays the same role as in `decodeHashListGo`; `data.length + 1` steps
are always enough since `offset` grows by at least one per iteration. -/
def decodeHashListReadsGo : Nat → Bytes → Nat → List Nat
  | 0, _, _ => []
  | fuel + 1, data, offset =>
    if offset < data.length then
      let len := data.getD offset 0
      offset :: (List.range' (offset + 1) (min len (data.length - (offset + 1))) ++
        decodeHashListReadsGo fuel data (offset + 1 + len))
    else
      []

/-- All buffer indices read by `decodeHashList(data)`. -/
def decodeHashListReads (data : Bytes) : List Nat :=
  decodeHashListReadsGo (data.length + 1) data 0

/-- `decode` as claim C6 would have it ("a length prefix whose declared
payload exceeds remaining bytes is a decode error").  Modelled from the spec:
identical to `decodeHashList` except that an over-declaring length prefix
yields an error (`none`) instead of a clamped slice.  The code under
verification has no such error path; this definition exists only to be
compared with `decodeHashList`. -/
def specDecodeHashListCheckedGo : Nat → Bytes → Option (List Bytes)
  | _, [] => some []
  | 0, _ :: _ => none
  | fuel + 1, len :: rest =>
    if len ≤ rest.length then
      (specDecodeHashListCheckedGo fuel (rest.drop len)).map (fun tail => rest.take len :: tail)
    else
      none

/-- Entry point of the spec-side checked decoder. -/
def specDecodeHashListChecked (data : Bytes) : Option (List Bytes) :=
  specDecodeHashListCheckedGo data.length data

/-- A blob is well formed when, scanning records from the start, every 1-byte
length prefix declares a payload lying entirely within the blob and the final
record ends exactly at the end of the blob. -/
inductive WellFormedBlob : Bytes → Prop
  | nil : WellFormedBlob []
  | cons (len : Nat) (rest : Bytes) :
      len ≤ rest.length → WellFormedBlob (rest.drop len) → WellFormedBlob (len :: rest)

/-! ## Data model: the `messages` and `parents` tables -/

/-- One row of the `messages` table:
`messages(channel_id, hash, parent_hashes, height, blob)`. -/
structure Row where
  channelId : Bytes
  hash : Bytes
  parentHashes : Bytes
  height : Nat
  blob : Bytes
deriving DecidableEq

/-- One row of the `parents` table: `parents(channel_id, hash)`. -/
structure PRow where
  channelId : Bytes
  hash : Bytes
deriving DecidableEq

/-- The two message-related tables of the store (the `entities` table plays no
role in the claims under verification). -/
structure StorageState where
  messages : List Row
  parents : List PRow
deriving DecidableEq

/-- The argument of `addMessage`: a fully formed message produced upstream. -/
structure Message where
  channelId : Bytes
  hash : Bytes
  parents : List Bytes
  height : Nat
  data : Bytes
deriving DecidableEq

/-- The store right after `createTables` (and after `clear`). -/
def emptyState : StorageState := { messages := [], parents := [] }

/-- `clear()` deletes every row of `messages` and `parents`. -/
def clear (_st : StorageState) : StorageState := emptyState

/-- `REPLACE INTO messages`: the table has `PRIMARY KEY(hash)`, so any existing
row with the same hash (whatever its channel) is deleted and the new row is
inserted. -/
def replaceRow (rows : List Row) (r : Row) : List Row :=
  r :: rows.filter (fun q => q.hash != r.hash)

/-- `REPLACE INTO parents`: same global `PRIMARY KEY(hash)` upsert. -/
def replaceParent (tab : List PRow) (c p : Bytes) : List PRow :=
  PRow.mk c p :: tab.filter (fun q => q.hash != p)

/-- `addMessage(message)`: encode the parent list (a throw aborts the call
before any row is touched), replace the message row, then replace one parents
row per parent hash, all in one transaction. -/
def addMessage (st : StorageState) (m : Message) : Option StorageState :=
  match encodeHashList m.parents with
  | none => none
  | some enc =>
    some
      { messages := replaceRow st.messages ⟨m.channelId, m.hash, enc, m.height, m.data⟩,
        parents := m.parents.foldl (fun tab p => replaceParent tab m.channelId p) st.parents }

/-- Run a sequence of `addMessage` calls; `none` as soon as one call throws. -/
def runMessages : StorageState → List Message → Option StorageState
  | st, [] => some st
  | st, m :: ms =>
    match addMessage st m with
    | none => none
    | some st2 => runMessages st2 ms

/-- Run a sequence of `addMessage` calls against a fresh (or just cleared)
store. -/
def runTrace (ms : List Message) : Option StorageState :=
  runMessages emptyState ms

/-- `getMessageCount`: `SELECT COUNT(*) FROM messages WHERE channel_id == ?`. -/
def getMessageCount (st : StorageState) (c : Bytes) : Nat :=
  (st.messages.filter (fun r => r.channelId == c)).length

/-- `hasMessage`: `count != 0` over
`SELECT COUNT(*) FROM messages WHERE channel_id == ? AND hash == ?`. -/
def hasMessage (st : StorageState) (c h : Bytes) : Bool :=
  (st.messages.filter (fun r => r.channelId == c && r.hash == h)).length != 0

/-- `getMessage`: the `blob` of the first row matching
`channel_id == ? AND hash == ?`, or an absent marker. -/
def getMessage (st : StorageState) (c h : Bytes) : Option Bytes :=
  ((st.messages.filter (fun r => r.channelId == c && r.hash == h)).head?).map Row.blob

/-- The subquery `SELECT hash FROM parents WHERE channel_id == ?`. -/
def parentHashesFor (st : StorageState) (c : Bytes) : List Bytes :=
  (st.parents.filter (fun p => p.channelId == c)).map PRow.hash

/-- `getLeafHashes`: hashes of the channel's messages that do not appear in the
channel's slice of the `parents` table. -/
def getLeafHashes (st : StorageState) (c : Bytes) : List Bytes :=
  (st.messages.filter
      (fun r => r.channelId == c && decide (r.hash ∉ parentHashesFor st c))).map Row.hash

/-! ## Ordering: sqlite blob comparison and the `(height, hash)` sort key -/

/-- Sqlite BLOB comparison: bytewise memcmp on the common prefix, the shorter
blob first on ties.  `blobLe a b` is `a <= b`. -/
def blobLe : Bytes → Bytes → Bool
  | [], _ => true
  | _ :: _, [] => false
  | a :: as, b :: bs => if a < b then true else if b < a then false else blobLe as bs

/-- Strict blob comparison, `a < b`. -/
def blobLt (a b : Bytes) : Bool := !(blobLe b a)

/-- `ORDER BY height ASC, hash ASC` as a boolean total preorder on rows. -/
def rowLe (x y : Row) : Bool :=
  if x.height < y.height then true
  else if y.height < x.height then false
  else blobLe x.hash y.hash

/-- The ascending sort relation used by forward queries. -/
def rowAsc (x y : Row) : Prop := rowLe x y = true

/-- The descending sort relation used by backward queries
(`ORDER BY height DESC, hash DESC`). -/
def rowDesc (x y : Row) : Prop := rowLe y x = true

instance : DecidableRel rowAsc := fun _x _y => inferInstanceAs (Decidable (_ = true))

instance : DecidableRel rowDesc := fun _x _y => inferInstanceAs (Decidable (_ = true))

/-! ## Pagination engine (`query` in storage.js) -/

/-- The `WHERE channel_id == ? AND hash >= ?` clause of a forward hash query. -/
def fwdMatches (db : List Row) (c h : Bytes) : List Row :=
  db.filter (fun r => r.channelId == c && blobLe h r.hash)

/-- The `WHERE channel_id == ? AND hash < ?` clause of a backward hash query. -/
def bwdMatches (db : List Row) (c h : Bytes) : List Row :=
  db.filter (fun r => r.channelId == c && blobLt r.hash h)

/-- The `WHERE channel_id == ? AND height >= ?` clause of a forward height
query. -/
def heightMatches (db : List Row) (c : Bytes) (hh : Nat) : List Row :=
  db.filter (fun r => r.channelId == c && decide (hh ≤ r.height))

/-- A cursor is either a hash anchor or a height anchor (`cursor.hash` being
set decides the branch in the source). -/
inductive Cursor
  | byHash (hash : Bytes)
  | byHeight (height : Nat)

/-- One element of `abbreviatedMessages`: the row's hash plus its decoded
parent list. -/
structure AbbrevMessage where
  hash : Bytes
  parents : List Bytes
deriving DecidableEq

/-- The record `query` resolves with. -/
structure QueryResult where
  abbreviatedMessages : List AbbrevMessage
  backwardHash : Option Bytes
  forwardHash : Option Bytes
deriving DecidableEq

/-- `row => ({ hash, parents: decodeHashList(row.parent_hashes) })`. -/
def toAbbrev (r : Row) : AbbrevMessage :=
  { hash := r.hash, parents := decodeHashList r.parentHashes }

/-- The post-processing of a forward query: `rows` is what the statement with
`LIMIT limit + 1` returned.  If an extra row exists, it is dropped from the
window and `forwardHash` becomes its hash (`rows[rows.length - 1]`);
`backwardHash` is `rows[0].hash` whenever any row was fetched. -/
def forwardResult (rows : List Row) (lim : Nat) : QueryResult :=
  let abbrevs := rows.map toAbbrev
  if lim < rows.length then
    { abbreviatedMessages := abbrevs.dropLast,
      backwardHash := rows.head?.map Row.hash,
      forwardHash := rows.getLast?.map Row.hash }
  else
    { abbreviatedMessages := abbrevs,
      backwardHash := rows.head?.map Row.hash,
      forwardHash := none }

/-- The post-processing of a backward query: the fetched rows are reversed in
place, then if an extra row exists the first element of the reversed list is
dropped from the window and `backwardHash` becomes its hash (`rows[0]` after
the reversal); `forwardHash` is always the anchor hash of the cursor. -/
def backwardResult (fetched : List Row) (lim : Nat) (anchor : Bytes) : QueryResult :=
  let rows := fetched.reverse
  let abbrevs := rows.map toAbbrev
  if lim < rows.length then
    { abbreviatedMessages := abbrevs.drop 1,
      backwardHash := rows.head?.map Row.hash,
      forwardHash := some anchor }
  else
    { abbreviatedMessages := abbrevs,
      backwardHash := none,
      forwardHash := some anchor }

/-- `query(channelId, cursor, isBackward, limit)` from storage.js.  The limit
is clamped by `Math.max(0, limit)` (modelled by `Int.toNat`), the statement
fetches `limit + 1` rows, and a backward query without a hash cursor throws
before any statement is built or executed. -/
def query (db : List Row) (channelId : Bytes) (cursor : Cursor) (isBackward : Bool)
    (limit : Int) : Except String QueryResult :=
  match cursor, isBackward with
  | Cursor.byHeight _, true => Except.error "Backwards query by height is not supported"
  | Cursor.byHash h, true =>
    Except.ok (backwardResult
      (((bwdMatches db channelId h).insertionSort rowDesc).take (limit.toNat + 1))
      limit.toNat h)
  | Cursor.byHash h, false =>
    Except.ok (forwardResult
      (((fwdMatches db channelId h).insertionSort rowAsc).take (limit.toNat + 1))
      limit.toNat)
  | Cursor.byHeight hh, false =>
    Except.ok (forwardResult
      (((heightMatches db channelId hh).insertionSort rowAsc).take (limit.toNat + 1))
      limit.toNat)

/-- The returned window of a query, `none` when the query threw. -/
def windowOf : Except String QueryResult → Option (List AbbrevMessage)
  | Except.ok r => some r.abbreviatedMessages
  | Except.error _ => none

/-- The hashes of the returned window. -/
def windowHashes (e : Except String QueryResult) : Option (List Bytes) :=
  (windowOf e).map (fun w => w.map AbbrevMessage.hash)

/-- The `backwardHash` continuation cursor, `none` when the query threw. -/
def backCursorOf : Except String QueryResult → Option (Option Bytes)
  | Except.ok r => some r.backwardHash
  | Except.error _ => none

/-- The `forwardHash` continuation cursor, `none` when the query threw. -/
def forwardCursorOf : Except String QueryResult → Option (Option Bytes)
  | Except.ok r => some r.forwardHash
  | Except.error _ => none

/-! ## Spec-side statements used to settle the claims -/

/-- The leaf invariant of claim C1, read over the observable store: a hash `h`
of channel `c` is reported by `getLeafHashes` exactly when `h` is the hash of
a stored message of `c` and no stored message of `c` lists `h` among its
decoded parents. -/
@[reducible] def LeafInvariant (st : StorageState) (c h : Bytes) : Prop :=
  h ∈ getLeafHashes st c ↔
    ((∃ r ∈ st.messages, r.channelId = c ∧ r.hash = h) ∧
      ¬∃ r ∈ st.messages, r.channelId = c ∧ h ∈ decodeHashList r.parentHashes)

/-- The restriction under which the leaf invariant survives the global
`PRIMARY KEY(hash)` of both tables: no two calls share a message hash, and any
given parent hash is only ever cited by messages of a single channel. -/
@[reducible] def ValidTrace (ms : List Message) : Prop :=
  (ms.map Message.hash).Nodup ∧
  ∀ m1 ∈ ms, ∀ m2 ∈ ms, ∀ p, p ∈ m1.parents → p ∈ m2.parents → m1.channelId = m2.channelId

/-- The `parents` table is exactly the citation relation of the `messages`
table. -/
def GoodState (st : StorageState) : Prop :=
  ∀ c p, PRow.mk c p ∈ st.parents ↔
    ∃ r ∈ st.messages, r.channelId = c ∧ p ∈ decodeHashList r.parentHashes

/-- Every stored row originates from one of the messages inserted so far. -/
def RowsFrom (past : List Message) (st : StorageState) : Prop :=
  ∀ r ∈ st.messages, ∃ m ∈ past,
    m.hash = r.hash ∧ m.channelId = r.channelId ∧ decodeHashList r.parentHashes = m.parents

/-- The forward window of claim C3 as the claim words it: the anchor is looked
up by hash, and rows are filtered by canonical order key `(height, hash)`
greater than or equal to the anchor's key — not by raw hash as the code does. -/
def specC3ForwardWindow (db : List Row) (c h : Bytes) (limit : Int) : Option (List Bytes) :=
  (db.find? (fun r => r.hash == h)).map (fun anchor =>
    (((db.filter (fun r => r.channelId == c && rowLe anchor r)).insertionSort rowAsc).take
        limit.toNat).map Row.hash)

/-! ## Concrete data for counterexamples and witnesses -/

/-- Channel id `a` of the examples. -/
def chA : Bytes := [0]

/-- Channel id `b` of the examples. -/
def chB : Bytes := [1]

/-- A root message of channel `a`, hash `[0]`, no parents. -/
def msgRootA : Message := { channelId := chA, hash := [0], parents := [], height := 0, data := [] }

/-- A child of `msgRootA` in channel `a`, hash `[1]`, citing `[0]`. -/
def msgChildA : Message :=
  { channelId := chA, hash := [1], parents := [[0]], height := 1, data := [] }

/-- A message of channel `b` citing the same parent hash `[0]` as
`msgChildA`. -/
def msgStealB : Message :=
  { channelId := chB, hash := [2], parents := [[0]], height := 0, data := [] }

/-- Re-insertion of hash `[1]` with a different (empty) parent list. -/
def msgChildA2 : Message :=
  { channelId := chA, hash := [1], parents := [], height := 1, data := [] }

/-- Root then child then a cross-channel citation of the root's hash. -/
def traceCross : List Message := [msgRootA, msgChildA, msgStealB]

/-- Root then child then a replacement of the child that drops its parents. -/
def traceReplace : List Message := [msgRootA, msgChildA, msgChildA2]

/-- A single-channel root-and-child history (the happy path of the tests). -/
def traceGood : List Message := [msgRootA, msgChildA]

/-- A store holding one message of channel `b` with hash `[9]`. -/
def stOneB : StorageState :=
  { messages := [{ channelId := chB, hash := [9], parentHashes := [], height := 0, blob := [7] }],
    parents := [] }

/-- A channel-`a` message re-using the hash `[9]` stored for channel `b`. -/
def msgHashSteal : Message :=
  { channelId := chA, hash := [9], parents := [], height := 0, data := [] }

/-- A message whose single parent hash is 256 bytes long. -/
def msgOversized : Message :=
  { channelId := chA, hash := [1], parents := [List.replicate 256 7], height := 0, data := [] }

/-- Two rows of one channel whose raw-hash order disagrees with their
`(height, hash)` order: hash `[2]` at height 0, hash `[1]` at height 1. -/
def dbKeyVsHash : List Row :=
  [{ channelId := chA, hash := [2], parentHashes := [], height := 0, blob := [] },
   { channelId := chA, hash := [1], parentHashes := [], height := 1, blob := [] }]

/-- Five rows of one channel at equal height, hashes `[1]` through `[5]`. -/
def dbFive : List Row :=
  [{ channelId := chA, hash := [1], parentHashes := [], height := 0, blob := [] },
   { channelId := chA, hash := [2], parentHashes := [], height := 0, blob := [] },
   { channelId := chA, hash := [3], parentHashes := [], height := 0, blob := [] },
   { channelId := chA, hash := [4], parentHashes := [], height := 0, blob := [] },
   { channelId := chA, hash := [5], parentHashes := [], height := 0, blob := [] }]

/-! ## Codec lemmas -/

theorem decodeHashListGo_nil (fuel : Nat) : decodeHashListGo fuel [] = [] := by
  cases fuel <;> rfl

theorem decodeHashListGo_congr :
    ∀ (f1 f2 : Nat) (data : Bytes), data.length ≤ f1 → data.length ≤ f2 →
      decodeHashListGo f1 data = decodeHashListGo f2 data := by
  intro f1
  induction f1 with
  | zero =>
    intro f2 data h1 _
    have : data = [] := List.length_eq_zero.mp (Nat.le_antisymm h1 (Nat.zero_le _))
    subst this
    simp [decodeHashListGo_nil]
  | succ f ih =>
    intro f2 data h1 h2
    cases data with
    | nil => simp [decodeHashListGo_nil]
    | cons len rest =>
      cases f2 with
      | zero => simp at h2
      | succ f2 =>
        simp only [decodeHashListGo]
        have hdl : (rest.drop len).length ≤ rest.length := by
          simp [List.length_drop]
        have h1' : (rest.drop len).length ≤ f := by
          simp only [List.length_cons] at h1; omega
        have h2' : (rest.drop len).length ≤ f2 := by
          simp only [List.length_cons] at h2; omega
        rw [ih f2 (rest.drop len) h1' h2']

@[simp] theorem decodeHashList_nil : decodeHashList [] = [] := rfl

/-- One iteration of the decode loop. -/
theorem decodeHashList_cons (len : Nat) (rest : Bytes) :
    decodeHashList (len :: rest) = rest.take len :: decodeHashList (rest.drop len) := by
  show decodeHashListGo (rest.length + 1) (len :: rest)
      = rest.take len :: decodeHashListGo (rest.drop len).length (rest.drop len)
  simp only [decodeHashListGo]
  congr 1
  exact decodeHashListGo_congr rest.length (rest.drop len).length (rest.drop len)
    (by simp [List.length_drop]) (Nat.le_refl _)

/-- Every index the decode loop reads is inside the buffer, whatever the fuel
and the starting offset. -/
theorem decodeHashListReadsGo_lt :
    ∀ (fuel : Nat) (data : Bytes) (offset : Nat),
      ∀ i ∈ decodeHashListReadsGo fuel data offset, i < data.length := by
  intro fuel
  induction fuel with
  | zero => intro data offset i hi; simp [decodeHashListReadsGo] at hi
  | succ f ih =>
    intro data offset i hi
    simp only [decodeHashListReadsGo] at hi
    by_cases hoff : offset < data.length
    · rw [if_pos hoff] at hi
      rcases List.mem_cons.mp hi with h | h
      · omega
      · rcases List.mem_append.mp h with h | h
        · rcases List.mem_range'.mp h with ⟨k, hk, rfl⟩
          omega
        · exact ih data (offset + 1 + data.getD offset 0) i h
    · rw [if_neg hoff] at hi
      simp at hi

theorem encodeHashList_eq_some {list : List Bytes} {b : Bytes}
    (h : encodeHashList list = some b) :
    (∀ e ∈ list, e.length ≤ 255) ∧ b = (list.map (fun elem => elem.length :: elem)).flatten := by
  unfold encodeHashList at h
  by_cases hall : list.all (fun elem => elem.length ≤ 255)
  · rw [if_pos hall] at h
    refine ⟨?_, (Option.some_inj.mp h).symm⟩
    intro e he
    have := List.all_eq_true.mp hall e he
    simpa using this
  · rw [if_neg hall] at h
    exact absurd h (by simp)

theorem encodeHashList_of_le {list : List Bytes} (h : ∀ e ∈ list, e.length ≤ 255) :
    encodeHashList list = some ((list.map (fun elem => elem.length :: elem)).flatten) := by
  unfold encodeHashList
  rw [if_pos]
  exact List.all_eq_true.mpr (fun e he => by simpa using h e he)

theorem encodeHashList_eq_none {list : List Bytes} :
    encodeHashList list = none ↔ ∃ e ∈ list, 255 < e.length := by
  unfold encodeHashList
  by_cases hall : list.all (fun elem => elem.length ≤ 255)
  · rw [if_pos hall]
    simp only [List.all_eq_true] at hall
    constructor
    · intro h; exact absurd h (by simp)
    · rintro ⟨e, he, hlen⟩
      have := hall e he
      simp at this
      omega
  · rw [if_neg hall]
    simp only [List.all_eq_true] at hall
    push_neg at hall
    rcases hall with ⟨e, he, hlen⟩
    simp at hlen
    constructor
    · intro _
      exact ⟨e, he, by omega⟩
    · intro _
      rfl

/-- Decoding the concatenation of encoded records recovers the original list;
no side condition is needed because each record carries its exact length. -/
theorem decode_flatten_encode :
    ∀ list : List Bytes,
      decodeHashList ((list.map (fun elem => elem.length :: elem)).flatten) = list := by
  intro list
  induction list with
  | nil => rfl
  | cons x xs ih =>
    simp only [List.map_cons, List.flatten_cons, List.cons_append]
    rw [decodeHashList_cons, List.take_left, List.drop_left, ih]

/-- Round trip through the codec: encode then decode is the identity. -/
theorem decode_encode {list : List Bytes} {b : Bytes}
    (h : encodeHashList list = some b) : decodeHashList b = list := by
  rcases encodeHashList_eq_some h with ⟨-, rfl⟩
  exact decode_flatten_encode list

/-- Every element decoded from a buffer of genuine bytes is at most 255 bytes
long, because its length came out of a single byte. -/
theorem decodeHashList_length_le :
    ∀ (n : Nat) (data : Bytes), data.length ≤ n → (∀ b ∈ data, b < 256) →
      ∀ e ∈ decodeHashList data, e.length ≤ 255 := by
  intro n
  induction n with
  | zero =>
    intro data h1 _
    have : data = [] := List.length_eq_zero.mp (Nat.le_antisymm h1 (Nat.zero_le _))
    subst this
    simp
  | succ n ih =>
    intro data hlen hbytes e he
    cases data with
    | nil => simp at he
    | cons len rest =>
      rw [decodeHashList_cons] at he
      rcases List.mem_cons.mp he with rfl | he
      · have hb : len < 256 := hbytes len (List.mem_cons_self _ _)
        have : (rest.take len).length ≤ len := by
          simp [List.length_take]
        omega
      · refine ih (rest.drop len) ?_ ?_ e he
        · simp only [List.length_cons] at hlen
          simp [List.length_drop]
          omega
        · intro b hb
          exact hbytes b (List.mem_cons_of_mem _ (List.drop_subset _ _ hb))

/-! ## Claim C2: encode/decode round trip -/

/-- C2: for every list of byte strings in which each element is at most 255
bytes long, `decodeHashList (encodeHashList list)` returns the same elements in
the same order. -/
theorem decode_encode_roundtrip (list : List Bytes) (hle : ∀ e ∈ list, e.length ≤ 255) :
    (encodeHashList list).map decodeHashList = some list := by
  rw [encodeHashList_of_le hle]
  simp only [Option.map_some']
  rw [decode_flatten_encode]

/-- Witness for C2 at a concrete list. -/
theorem decode_encode_roundtrip_witness :
    (encodeHashList [[104, 105], [255], []]).map decodeHashList = some [[104, 105], [255], []] :=
  decode_encode_roundtrip [[104, 105], [255], []] (by decide)

/-! ## Claim C6: decoding truncated blobs -/

/-- C6 counterexample: on the blob `[2, 7]`, whose length prefix declares two
bytes while only one remains, the claim demands a decode error (the behaviour
of the spec-side `specDecodeHashListChecked`), but `decodeHashList` returns
normally with the clamped slice `[7]`. -/
theorem decode_truncated_counterexample :
    specDecodeHashListChecked [2, 7] = none ∧ decodeHashList [2, 7] = [[7]] := by
  decide

/-- C6 amended: `decodeHashList` never reads outside the blob, and a length
prefix that declares more than the remaining bytes is not an error: the loop
returns the remaining bytes, truncated, as the final element. -/
theorem decode_truncated_behavior :
    (∀ data : Bytes, ∀ i ∈ decodeHashListReads data, i < data.length) ∧
    (∀ (len : Nat) (rest : Bytes), rest.length < len →
      decodeHashList (len :: rest) = [rest]) := by
  constructor
  · intro data i hi
    exact decodeHashListReadsGo_lt (data.length + 1) data 0 i hi
  · intro len rest hlt
    rw [decodeHashList_cons, List.take_of_length_le (Nat.le_of_lt hlt),
      List.drop_eq_nil_of_le (Nat.le_of_lt hlt)]
    rfl

/-- Witness for the amended C6 at a concrete truncated blob. -/
theorem decode_truncated_behavior_witness : decodeHashList [5] = [[]] :=
  decode_truncated_behavior.2 5 [] (by decide)

/-! ## Claim C7: oversized parent hashes abort the insert -/

/-- C7: a message with a parent hash longer than 255 bytes makes the codec
throw synchronously, before any record is written, and `addMessage` aborts with
no new state — the stored tables are exactly those of the state before the
call, and no partially written buffer exists. -/
theorem addMessage_oversized_parent_aborts (st : StorageState) (m : Message)
    (hbig : ∃ p ∈ m.parents, 255 < p.length) :
    encodeHashList m.parents = none ∧ addMessage st m = none := by
  have henc : encodeHashList m.parents = none := encodeHashList_eq_none.mpr hbig
  refine ⟨henc, ?_⟩
  unfold addMessage
  rw [henc]

/-- Witness for C7 at a message carrying one 256-byte parent hash. -/
theorem addMessage_oversized_parent_aborts_witness :
    encodeHashList msgOversized.parents = none ∧ addMessage emptyState msgOversized = none :=
  addMessage_oversized_parent_aborts emptyState msgOversized
    ⟨List.replicate 256 7, List.mem_singleton.mpr rfl, by rw [List.length_replicate]; omega⟩

/-! ## Claim C9: decode is total and memory safe -/

/-- C9: `decodeHashList` is a total function (its definition above is accepted
by the termination checker, so it terminates on every blob and never raises);
every buffer index it reads is within bounds, and when the blob consists of
genuine bytes every decoded element is at most 255 bytes long. -/
theorem decode_total_safe (data : Bytes) (hbytes : ∀ b ∈ data, b < 256) :
    (∀ i ∈ decodeHashListReads data, i < data.length) ∧
    (∀ e ∈ decodeHashList data, e.length ≤ 255) := by
  constructor
  · intro i hi
    exact decodeHashListReadsGo_lt (data.length + 1) data 0 i hi
  · exact decodeHashList_length_le data.length data (Nat.le_refl _) hbytes

/-- Witness for C9 at a concrete corrupt blob (over-declaring prefix). -/
theorem decode_total_safe_witness :
    (∀ i ∈ decodeHashListReads [3, 1, 200], i < ([3, 1, 200] : Bytes).length) ∧
    (∀ e ∈ decodeHashList [3, 1, 200], e.length ≤ 255) :=
  decode_total_safe [3, 1, 200] (by decide)

/-! ## Claim C10: well-formed blobs re-encode to themselves -/

/-- C10: for every well-formed blob of genuine bytes — every length prefix's
payload lies inside the blob and the last record ends exactly at its end —
encoding the decoded list reproduces the blob byte for byte. -/
theorem encode_decode_wf (data : Bytes) (hbytes : ∀ b ∈ data, b < 256)
    (hwf : WellFormedBlob data) :
    encodeHashList (decodeHashList data) = some data := by
  induction hwf with
  | nil => rfl
  | cons len rest hlen hrec ih =>
    have hbytesRest : ∀ b ∈ rest.drop len, b < 256 := fun b hb =>
      hbytes b (List.mem_cons_of_mem _ (List.drop_subset _ _ hb))
    have ihres := ih hbytesRest
    rcases encodeHashList_eq_some ihres with ⟨hall, hflat⟩
    rw [decodeHashList_cons]
    have htakelen : (rest.take len).length = len := by
      simp [List.length_take]
      omega
    have hheadle : (rest.take len).length ≤ 255 := by
      have := hbytes len (List.mem_cons_self _ _)
      omega
    rw [encodeHashList_of_le]
    · congr 1
      simp only [List.map_cons, List.flatten_cons]
      rw [htakelen, ← hflat]
      simp only [List.cons_append]
      rw [List.take_append_drop]
    · intro e he
      rcases List.mem_cons.mp he with rfl | he
      · exact hheadle
      · exact hall e he

/-- Witness for C10 at the concrete well-formed blob `[1, 7, 0, 2, 3, 4]`
(records `[7]`, `[]`, `[3, 4]`). -/
theorem encode_decode_wf_witness :
    encodeHashList (decodeHashList [1, 7, 0, 2, 3, 4]) = some [1, 7, 0, 2, 3, 4] :=
  encode_decode_wf [1, 7, 0, 2, 3, 4] (by decide)
    (WellFormedBlob.cons 1 [7, 0, 2, 3, 4] (by decide)
      (WellFormedBlob.cons 0 [2, 3, 4] (by decide)
        (WellFormedBlob.cons 2 [3, 4] (by decide) WellFormedBlob.nil)))

/-! ## State lemmas for the leaf invariant -/

theorem mem_replaceParent {tab : List PRow} {c q ch p : Bytes} :
    PRow.mk c q ∈ replaceParent tab ch p ↔
      ((c = ch ∧ q = p) ∨ (PRow.mk c q ∈ tab ∧ q ≠ p)) := by
  unfold replaceParent
  simp only [List.mem_cons, List.mem_filter, PRow.mk.injEq, bne_iff_ne, ne_eq]

theorem mem_replaceParent_foldl (ch : Bytes) :
    ∀ (ps : List Bytes) (tab : List PRow) (c q : Bytes),
      (PRow.mk c q ∈ ps.foldl (fun t p => replaceParent t ch p) tab) ↔
        ((q ∈ ps ∧ c = ch) ∨ (q ∉ ps ∧ PRow.mk c q ∈ tab)) := by
  intro ps
  induction ps with
  | nil => intro tab c q; simp
  | cons p rest ih =>
    intro tab c q
    simp only [List.foldl_cons]
    rw [ih, mem_replaceParent]
    by_cases hq : q = p <;> by_cases hr : q ∈ rest <;>
      simp [hq, hr, List.mem_cons] <;> tauto

theorem addMessage_eq_some {st st2 : StorageState} {m : Message}
    (h : addMessage st m = some st2) :
    ∃ enc, encodeHashList m.parents = some enc ∧
      st2.messages = replaceRow st.messages ⟨m.channelId, m.hash, enc, m.height, m.data⟩ ∧
      st2.parents = m.parents.foldl (fun tab p => replaceParent tab m.channelId p) st.parents := by
  unfold addMessage at h
  cases henc : encodeHashList m.parents with
  | none => rw [henc] at h; exact absurd h (by simp)
  | some enc =>
    rw [henc] at h
    have h2 := Option.some_inj.mp h
    subst h2
    exact ⟨enc, rfl, rfl, rfl⟩

theorem mem_parentHashesFor {st : StorageState} {c x : Bytes} :
    x ∈ parentHashesFor st c ↔ PRow.mk c x ∈ st.parents := by
  unfold parentHashesFor
  simp only [List.mem_map, List.mem_filter, beq_iff_eq]
  constructor
  · rintro ⟨p, ⟨hp, hc⟩, hx⟩
    rcases p with ⟨pc, ph⟩
    dsimp at hc hx
    subst hc
    subst hx
    exact hp
  · intro hmem
    exact ⟨PRow.mk c x, ⟨hmem, rfl⟩, rfl⟩

theorem mem_getLeafHashes {st : StorageState} {c h : Bytes} :
    h ∈ getLeafHashes st c ↔
      ∃ r ∈ st.messages, r.channelId = c ∧ r.hash = h ∧ PRow.mk c h ∉ st.parents := by
  unfold getLeafHashes
  simp only [List.mem_map, List.mem_filter, Bool.and_eq_true, beq_iff_eq,
    decide_eq_true_eq]
  constructor
  · rintro ⟨r, ⟨hr, hc, hnot⟩, hx⟩
    subst hx
    exact ⟨r, hr, hc, rfl, fun hmem => hnot (mem_parentHashesFor.mpr hmem)⟩
  · rintro ⟨r, hr, hc, hx, hnot⟩
    subst hx
    exact ⟨r, ⟨hr, hc, fun hmem => hnot (mem_parentHashesFor.mp hmem)⟩, rfl⟩

theorem leafInvariant_of_goodState {st : StorageState} (hg : GoodState st) (c h : Bytes) :
    LeafInvariant st c h := by
  unfold LeafInvariant
  rw [mem_getLeafHashes]
  have hp := hg c h
  constructor
  · rintro ⟨r, hr, hc, hh, hnot⟩
    exact ⟨⟨r, hr, hc, hh⟩, fun hcite => hnot (hp.mpr hcite)⟩
  · rintro ⟨⟨r, hr, hc, hh⟩, hnot⟩
    exact ⟨r, hr, hc, hh, fun hmem => hnot (hp.mp hmem)⟩

theorem goodState_step {st st2 : StorageState} {m : Message}
    (hg : GoodState st)
    (hfresh : ∀ r ∈ st.messages, r.hash ≠ m.hash)
    (hcite : ∀ p ∈ m.parents, ∀ c, PRow.mk c p ∈ st.parents → c = m.channelId)
    (hadd : addMessage st m = some st2) : GoodState st2 := by
  rcases addMessage_eq_some hadd with ⟨enc, henc, hmsg, hpar⟩
  have hdecenc : decodeHashList enc = m.parents := decode_encode henc
  have hrows : st2.messages
      = (⟨m.channelId, m.hash, enc, m.height, m.data⟩ : Row) :: st.messages := by
    rw [hmsg]
    unfold replaceRow
    congr 1
    apply List.filter_eq_self.mpr
    intro r hr
    simpa [bne_iff_ne] using hfresh r hr
  intro c q
  rw [hpar, mem_replaceParent_foldl, hrows]
  constructor
  · rintro (⟨hqp, rfl⟩ | ⟨hqnp, hmem⟩)
    · exact ⟨_, List.mem_cons_self _ _, rfl, by simpa [hdecenc] using hqp⟩
    · rcases (hg c q).mp hmem with ⟨r, hr, hrc, hrq⟩
      exact ⟨r, List.mem_cons_of_mem _ hr, hrc, hrq⟩
  · rintro ⟨r, hr, hrc, hrq⟩
    rcases List.mem_cons.mp hr with rfl | hr
    · left
      refine ⟨by simpa [hdecenc] using hrq, hrc.symm⟩
    · have hmem : PRow.mk c q ∈ st.parents := (hg c q).mpr ⟨r, hr, hrc, hrq⟩
      by_cases hq : q ∈ m.parents
      · left; exact ⟨hq, hcite q hq c hmem⟩
      · right; exact ⟨hq, hmem⟩

theorem runMessages_goodState :
    ∀ (ms past : List Message) (st st2 : StorageState),
      GoodState st → RowsFrom past st → ValidTrace (past ++ ms) →
      runMessages st ms = some st2 → GoodState st2 := by
  intro ms
  induction ms with
  | nil =>
    intro past st st2 hg _ _ hrun
    simp only [runMessages] at hrun
    have h2 := Option.some_inj.mp hrun
    subst h2
    exact hg
  | cons m ms ih =>
    intro past st st2 hg hfrom hvalid hrun
    simp only [runMessages] at hrun
    cases hadd : addMessage st m with
    | none => rw [hadd] at hrun; exact absurd hrun (by simp)
    | some st1 =>
      rw [hadd] at hrun
      have hnodup := hvalid.1
      have hmhash : m.hash ∉ past.map Message.hash := by
        rw [List.map_append] at hnodup
        have hdisj := (List.nodup_append.mp hnodup).2.2
        intro hmem
        exact hdisj hmem (by simp)
      have hfresh : ∀ r ∈ st.messages, r.hash ≠ m.hash := by
        intro r hr heq
        rcases hfrom r hr with ⟨m2, hm2, hhash, -, -⟩
        apply hmhash
        have : m2.hash = m.hash := by rw [hhash, heq]
        rw [← this]
        exact List.mem_map_of_mem _ hm2
      have hcite : ∀ p ∈ m.parents, ∀ c, PRow.mk c p ∈ st.parents → c = m.channelId := by
        intro p hp c hmem
        rcases (hg c p).mp hmem with ⟨r, hr, hrc, hrp⟩
        rcases hfrom r hr with ⟨m2, hm2, -, hch, hdec⟩
        have hpm2 : p ∈ m2.parents := by rw [← hdec]; exact hrp
        have hchan := hvalid.2 m2 (List.mem_append_left _ hm2) m
          (List.mem_append_right _ (List.mem_cons_self _ _)) p hpm2 hp
        calc c = r.channelId := hrc.symm
          _ = m2.channelId := hch.symm
          _ = m.channelId := hchan
      have hg1 : GoodState st1 := goodState_step hg hfresh hcite hadd
      have hfrom1 : RowsFrom (past ++ [m]) st1 := by
        rcases addMessage_eq_some hadd with ⟨enc, henc, hmsg, -⟩
        intro r hr
        rw [hmsg] at hr
        unfold replaceRow at hr
        rcases List.mem_cons.mp hr with rfl | hr
        · exact ⟨m, List.mem_append_right _ (List.mem_singleton.mpr rfl), rfl, rfl,
            by simpa using decode_encode henc⟩
        · have hr' := (List.mem_filter.mp hr).1
          rcases hfrom r hr' with ⟨m2, hm2, h1, h2, h3⟩
          exact ⟨m2, List.mem_append_left _ hm2, h1, h2, h3⟩
      have hvalid1 : ValidTrace ((past ++ [m]) ++ ms) := by
        have heq : (past ++ [m]) ++ ms = past ++ m :: ms := by simp
        rw [heq]
        exact hvalid
      exact ih (past ++ [m]) st1 st2 hg1 hfrom1 hvalid1 hrun

/-! ## Claim C1: the leaf invariant -/

/-- C1 counterexample: two concrete successful `addMessage` histories after
which the claimed invariant is false.  In `traceCross` a second channel cites
the parent hash `[0]`, and the global `PRIMARY KEY(hash)` of the `parents`
table makes the `REPLACE` steal channel `a`'s citation record, so `[0]` is
reported as a leaf of channel `a` although `msgChildA` still lists it as a
parent.  In `traceReplace` the child is re-inserted with an empty parent list;
the stale `parents` row survives, so `[0]` is not reported as a leaf although
no stored message of channel `a` cites it any more. -/
theorem leafInvariant_counterexample :
    (runTrace traceCross).isSome = true ∧
    ¬LeafInvariant ((runTrace traceCross).getD emptyState) chA [0] ∧
    (runTrace traceReplace).isSome = true ∧
    ¬LeafInvariant ((runTrace traceReplace).getD emptyState) chA [0] := by
  decide

/-- C1 (amended): after any sequence of successful `addMessage` calls in which
no two calls share a message hash and no parent hash is cited from two
different channels — and after `clear` — a hash `h` is reported as a leaf of
channel `c` by `getLeafHashes` iff `h` is the hash of a stored message of `c`
and no message stored in `c` lists `h` in its parents. -/
theorem leafInvariant_of_validTrace (ms : List Message) (st : StorageState)
    (hv : ValidTrace ms) (hrun : runTrace ms = some st) (c h : Bytes) :
    LeafInvariant st c h ∧ LeafInvariant (clear st) c h := by
  constructor
  · have hg : GoodState st := by
      apply runMessages_goodState ms [] emptyState st ?_ ?_ ?_ hrun
      · intro c q; simp [emptyState]
      · intro r hr; simp [emptyState] at hr
      · simpa using hv
    exact leafInvariant_of_goodState hg c h
  · have hg : GoodState (clear st) := by
      intro c q; simp [clear, emptyState]
    exact leafInvariant_of_goodState hg c h

/-- Witness for the amended C1 on the root-and-child history of the tests. -/
theorem leafInvariant_of_validTrace_witness :
    LeafInvariant ((runTrace traceGood).getD emptyState) chA [1] ∧
    LeafInvariant (clear ((runTrace traceGood).getD emptyState)) chA [1] :=
  leafInvariant_of_validTrace traceGood ((runTrace traceGood).getD emptyState)
    (by decide) (by rfl) chA [1]

/-! ## Claim C5: channel isolation -/

theorem filter_replaceRow_of_not (rows : List Row) (nr : Row) (p : Row → Bool)
    (hnew : p nr = false) (hold : ∀ r ∈ rows, p r = true → r.hash ≠ nr.hash) :
    (replaceRow rows nr).filter p = rows.filter p := by
  unfold replaceRow
  rw [List.filter_cons]
  rw [hnew]
  simp only [Bool.false_eq_true, if_false]
  rw [List.filter_filter]
  apply List.filter_congr
  intro r hr
  cases hp : p r with
  | false => simp
  | true =>
    simp only [Bool.and_true, Bool.true_and]
    simp [bne_iff_ne]
    exact hold r hr hp

/-- C5 counterexample: `addMessage` on channel `a` with a hash already stored
for channel `b` replaces channel `b`'s row (global `PRIMARY KEY(hash)`), so a
channel-scoped operation on `a` changes `b`'s observable message count. -/
theorem addMessage_cross_channel_counterexample :
    (addMessage stOneB msgHashSteal).isSome = true ∧
    getMessageCount ((addMessage stOneB msgHashSteal).getD emptyState) chB
      ≠ getMessageCount stOneB chB := by
  decide

/-- C5 (amended): an `addMessage` on a channel other than `b` leaves every
channel-scoped read of `b` (message count, membership and content lookups, and
the leaf set) unchanged, provided the inserted hash is not the hash of a
message stored for `b` and none of the inserted parent hashes is recorded as a
parent reference of `b`. -/
theorem addMessage_frame (st : StorageState) (m : Message) (st2 : StorageState) (b : Bytes)
    (hch : m.channelId ≠ b)
    (hhash : ∀ r ∈ st.messages, r.hash = m.hash → r.channelId ≠ b)
    (hpar : ∀ p ∈ m.parents, PRow.mk b p ∉ st.parents)
    (hadd : addMessage st m = some st2) :
    getMessageCount st2 b = getMessageCount st b ∧
    (∀ h, hasMessage st2 b h = hasMessage st b h) ∧
    (∀ h, getMessage st2 b h = getMessage st b h) ∧
    (∀ h, h ∈ getLeafHashes st2 b ↔ h ∈ getLeafHashes st b) := by
  rcases addMessage_eq_some hadd with ⟨enc, henc, hmsg, hparEq⟩
  have hfilter1 : st2.messages.filter (fun r => r.channelId == b)
      = st.messages.filter (fun r => r.channelId == b) := by
    rw [hmsg]
    apply filter_replaceRow_of_not
    · exact beq_eq_false_iff_ne.mpr hch
    · intro r hr hp heq
      exact hhash r hr heq (beq_iff_eq.mp hp)
  have hfilter2 : ∀ h, st2.messages.filter (fun r => r.channelId == b && r.hash == h)
      = st.messages.filter (fun r => r.channelId == b && r.hash == h) := by
    intro h
    rw [hmsg]
    apply filter_replaceRow_of_not
    · have hfalse : ((⟨m.channelId, m.hash, enc, m.height, m.data⟩ : Row).channelId == b)
          = false := beq_eq_false_iff_ne.mpr hch
      simp [hfalse]
    · intro r hr hp heq
      exact hhash r hr heq (beq_iff_eq.mp (Bool.and_eq_true_iff.mp hp).1)
  have hparmem : ∀ x, PRow.mk b x ∈ st2.parents ↔ PRow.mk b x ∈ st.parents := by
    intro x
    rw [hparEq, mem_replaceParent_foldl]
    constructor
    · rintro (⟨hx, hbc⟩ | ⟨-, hmem⟩)
      · exact absurd hbc (fun hh => hch hh.symm)
      · exact hmem
    · intro hmem
      right
      refine ⟨?_, hmem⟩
      intro hx
      exact hpar x hx hmem
  refine ⟨?_, ?_, ?_, ?_⟩
  · unfold getMessageCount
    rw [hfilter1]
  · intro h
    unfold hasMessage
    rw [hfilter2 h]
  · intro h
    unfold getMessage
    rw [hfilter2 h]
  · intro h
    rw [mem_getLeafHashes, mem_getLeafHashes]
    constructor
    · rintro ⟨r, hr, hrc, hrh, hnot⟩
      rw [hmsg] at hr
      unfold replaceRow at hr
      rcases List.mem_cons.mp hr with rfl | hr
      · exact absurd hrc hch
      · exact ⟨r, (List.mem_filter.mp hr).1, hrc, hrh, fun hm => hnot ((hparmem h).mpr hm)⟩
    · rintro ⟨r, hr, hrc, hrh, hnot⟩
      refine ⟨r, ?_, hrc, hrh, fun hm => hnot ((hparmem h).mp hm)⟩
      rw [hmsg]
      unfold replaceRow
      apply List.mem_cons_of_mem
      apply List.mem_filter.mpr
      refine ⟨hr, ?_⟩
      simp only [bne_iff_ne, ne_eq]
      intro heq
      exact absurd hrc (hhash r hr heq)

/-- Witness for the amended C5: inserting a root into channel `a` leaves all
reads of channel `b` unchanged. -/
theorem addMessage_frame_witness :
    getMessageCount ((addMessage stOneB msgRootA).getD emptyState) chB
        = getMessageCount stOneB chB ∧
    (∀ h, hasMessage ((addMessage stOneB msgRootA).getD emptyState) chB h
        = hasMessage stOneB chB h) ∧
    (∀ h, getMessage ((addMessage stOneB msgRootA).getD emptyState) chB h
        = getMessage stOneB chB h) ∧
    (∀ h, h ∈ getLeafHashes ((addMessage stOneB msgRootA).getD emptyState) chB ↔
        h ∈ getLeafHashes stOneB chB) :=
  addMessage_frame stOneB msgRootA ((addMessage stOneB msgRootA).getD emptyState) chB
    (by decide) (by decide) (by decide) (by rfl)

/-! ## Ordering lemmas -/

theorem blobLe_total : ∀ a b : Bytes, blobLe a b = true ∨ blobLe b a = true
  | [], _ => Or.inl rfl
  | _ :: _, [] => Or.inr rfl
  | a :: as, b :: bs => by
    by_cases h1 : a < b
    · left; simp [blobLe, h1]
    · by_cases h2 : b < a
      · right; simp [blobLe, h2]
      · rcases blobLe_total as bs with h | h
        · left; simp [blobLe, h1, h2, h]
        · right; simp [blobLe, h1, h2, h]

theorem blobLe_trans : ∀ (a b c : Bytes),
    blobLe a b = true → blobLe b c = true → blobLe a c = true
  | [], _, _, _, _ => rfl
  | _ :: _, [], _, h1, _ => by simp [blobLe] at h1
  | _ :: _, _ :: _, [], _, h2 => by simp [blobLe] at h2
  | a :: as, b :: bs, c :: cs, h1, h2 => by
    simp only [blobLe] at h1 h2 ⊢
    split_ifs at h1 h2 ⊢ <;>
      first
        | rfl
        | (exact blobLe_trans as bs cs h1 h2)
        | (exfalso; omega)

theorem rowLe_total (x y : Row) : rowLe x y = true ∨ rowLe y x = true := by
  unfold rowLe
  by_cases h1 : x.height < y.height
  · left; simp [h1]
  · by_cases h2 : y.height < x.height
    · right; simp [h2]
    · rcases blobLe_total x.hash y.hash with h | h
      · left; simp [h1, h2, h]
      · right; simp [h1, h2, h]

theorem rowLe_trans {x y z : Row} (h1 : rowLe x y = true) (h2 : rowLe y z = true) :
    rowLe x z = true := by
  unfold rowLe at h1 h2 ⊢
  split_ifs at h1 h2 ⊢ <;>
    first
      | rfl
      | (exact blobLe_trans _ _ _ h1 h2)
      | (exfalso; omega)

theorem sorted_insertionSort_rowAsc (l : List Row) :
    List.Sorted rowAsc (l.insertionSort rowAsc) := by
  haveI : IsTotal Row rowAsc := ⟨fun a b => rowLe_total a b⟩
  haveI : IsTrans Row rowAsc := ⟨fun _a _b _c hab hbc => rowLe_trans hab hbc⟩
  exact List.sorted_insertionSort rowAsc l

theorem sorted_insertionSort_rowDesc (l : List Row) :
    List.Sorted rowDesc (l.insertionSort rowDesc) := by
  haveI : IsTotal Row rowDesc := ⟨fun a b => rowLe_total b a⟩
  haveI : IsTrans Row rowDesc := ⟨fun _a _b _c hab hbc => rowLe_trans hbc hab⟩
  exact List.sorted_insertionSort rowDesc l

/-! ## Window lemmas for the pagination engine -/

theorem take_succ_dropLast {α : Type} (l : List α) (k : Nat) (h : k < l.length) :
    (l.take (k + 1)).dropLast = l.take k := by
  rw [List.dropLast_eq_take, List.take_take]
  congr 1
  simp [List.length_take]
  omega

theorem reverse_drop_one {α : Type} (l : List α) : l.reverse.drop 1 = l.dropLast.reverse := by
  rcases List.eq_nil_or_concat l with rfl | ⟨as, a, rfl⟩
  · rfl
  · simp

/-- The trimming of a forward query: fetching `lim + 1` rows and dropping the
extra one when it exists leaves exactly the first `lim` rows. -/
theorem forwardResult_abbrev (l : List Row) (k : Nat) :
    (forwardResult (l.take (k + 1)) k).abbreviatedMessages = (l.take k).map toAbbrev := by
  unfold forwardResult
  by_cases h : k < (l.take (k + 1)).length
  · rw [if_pos h]
    dsimp only
    rw [← List.map_dropLast]
    congr 1
    apply take_succ_dropLast
    simp [List.length_take] at h
    omega
  · rw [if_neg h]
    dsimp only
    simp only [List.length_take] at h
    have hlen : l.length ≤ k := by omega
    rw [List.take_of_length_le hlen, List.take_of_length_le (Nat.le_succ_of_le hlen)]

/-- The trimming of a backward query: fetching `lim + 1` rows in descending
order, reversing, and dropping the first element when an extra row exists
leaves the reversal of the first `lim` descending rows. -/
theorem backwardResult_abbrev (l : List Row) (k : Nat) (anchor : Bytes) :
    (backwardResult (l.take (k + 1)) k anchor).abbreviatedMessages
      = ((l.take k).reverse).map toAbbrev := by
  unfold backwardResult
  by_cases h : k < (l.take (k + 1)).reverse.length
  · rw [if_pos h]
    dsimp only
    rw [← List.map_drop, reverse_drop_one]
    congr 2
    apply take_succ_dropLast
    simp [List.length_take] at h
    omega
  · rw [if_neg h]
    dsimp only
    simp only [List.length_reverse, List.length_take] at h
    have hlen : l.length ≤ k := by omega
    rw [List.take_of_length_le hlen, List.take_of_length_le (Nat.le_succ_of_le hlen)]

/-- In a sorted list, every element left out of the `take n` window is related
to every element of the window. -/
theorem take_sorted_max {α : Type} {r : α → α → Prop} {l : List α}
    (hs : List.Sorted r l) (n : Nat) :
    ∀ z ∈ l, z ∉ l.take n → ∀ y ∈ l.take n, r y z := by
  intro z hz hznot y hy
  have hsplit := List.take_append_drop n l
  have hz2 : z ∈ l.take n ++ l.drop n := by rw [hsplit]; exact hz
  rcases List.mem_append.mp hz2 with hmem | hmem
  · exact absurd hmem hznot
  · have hp : List.Pairwise r (l.take n ++ l.drop n) := by rw [hsplit]; exact hs
    exact (List.pairwise_append.mp hp).2.2 y hy z hmem

/-! ## Claim C3: query boundary semantics -/

/-- C3 counterexample: with hash `[2]` stored at height 0 and hash `[1]` at
height 1, a forward query anchored at `[2]` should, per the claim, return both
rows (both `(height, hash)` keys are at least `(0, [2])`), but the code filters
by raw hash (`hash >= ?`) and returns only the row with hash `[2]`. -/
theorem query_orderKey_counterexample :
    windowHashes (query dbKeyVsHash chA (Cursor.byHash [2]) false 9) = some [[2]] ∧
    specC3ForwardWindow dbKeyVsHash chA [2] 9 = some [[2], [1]] ∧
    ([[2]] : List Bytes) ≠ [[2], [1]] := by
  decide

/-- C3 (amended): the cursor comparison is on the raw hash, in sqlite blob
order, not on the `(height, hash)` key.  A forward query with hash cursor `h`
returns exactly the channel's rows with `hash >= h` in ascending
`(height, hash)` order truncated to the first `limit`; a backward query
returns exactly the rows with `hash < h` taken in descending `(height, hash)`
order, truncated to the first `limit`, then re-reversed so the returned window
is ascending. -/
theorem query_windows_by_hash (db : List Row) (c h : Bytes) (n : Int) :
    windowOf (query db c (Cursor.byHash h) false n)
        = some ((((fwdMatches db c h).insertionSort rowAsc).take n.toNat).map toAbbrev) ∧
    List.Sorted rowAsc (((fwdMatches db c h).insertionSort rowAsc).take n.toNat) ∧
    (∀ z ∈ fwdMatches db c h,
      z ∉ ((fwdMatches db c h).insertionSort rowAsc).take n.toNat →
      ∀ y ∈ ((fwdMatches db c h).insertionSort rowAsc).take n.toNat, rowAsc y z) ∧
    windowOf (query db c (Cursor.byHash h) true n)
        = some (((((bwdMatches db c h).insertionSort rowDesc).take n.toNat).reverse).map
            toAbbrev) ∧
    List.Sorted rowAsc ((((bwdMatches db c h).insertionSort rowDesc).take n.toNat).reverse) ∧
    (∀ z ∈ bwdMatches db c h,
      z ∉ ((bwdMatches db c h).insertionSort rowDesc).take n.toNat →
      ∀ y ∈ ((bwdMatches db c h).insertionSort rowDesc).take n.toNat, rowDesc y z) := by
  refine ⟨?_, ?_, ?_, ?_, ?_, ?_⟩
  · have hq : query db c (Cursor.byHash h) false n
        = Except.ok (forwardResult
            (((fwdMatches db c h).insertionSort rowAsc).take (n.toNat + 1)) n.toNat) := rfl
    rw [hq]
    simp only [windowOf]
    rw [forwardResult_abbrev]
  · exact List.Pairwise.sublist (List.take_sublist _ _) (sorted_insertionSort_rowAsc _)
  · intro z hz hznot y hy
    refine take_sorted_max (sorted_insertionSort_rowAsc _) n.toNat z ?_ hznot y hy
    simpa using hz
  · have hq : query db c (Cursor.byHash h) true n
        = Except.ok (backwardResult
            (((bwdMatches db c h).insertionSort rowDesc).take (n.toNat + 1)) n.toNat h) := rfl
    rw [hq]
    simp only [windowOf]
    rw [backwardResult_abbrev]
  · have hdesc : List.Pairwise rowDesc
        (((bwdMatches db c h).insertionSort rowDesc).take n.toNat) :=
      List.Pairwise.sublist (List.take_sublist _ _) (sorted_insertionSort_rowDesc _)
    rw [List.Sorted, List.pairwise_reverse]
    exact hdesc.imp (fun hab => hab)
  · intro z hz hznot y hy
    refine take_sorted_max (sorted_insertionSort_rowDesc _) n.toNat z ?_ hznot y hy
    simpa using hz

/-- Witness for the amended C3 at a concrete store. -/
theorem query_windows_by_hash_witness :
    windowOf (query dbKeyVsHash chA (Cursor.byHash [2]) false 2)
      = some ((((fwdMatches dbKeyVsHash chA [2]).insertionSort rowAsc).take
          (2 : Int).toNat).map toAbbrev) :=
  (query_windows_by_hash dbKeyVsHash chA [2] 2).1

/-! ## Claim C8: height cursors -/

/-- C8: a backward query with a height cursor fails with the "unsupported
query" error, and it does so for every store alike — the rejection precedes
any read of storage.  The same call in the forward direction succeeds and
returns the channel's rows of height at least the cursor height, in ascending
`(height, hash)` order (truncated to the first `limit` rows). -/
theorem height_cursor_query (db db2 : List Row) (c : Bytes) (hh : Nat) (n : Int) :
    query db c (Cursor.byHeight hh) true n
        = Except.error "Backwards query by height is not supported" ∧
    query db c (Cursor.byHeight hh) true n = query db2 c (Cursor.byHeight hh) true n ∧
    windowOf (query db c (Cursor.byHeight hh) false n)
        = some ((((heightMatches db c hh).insertionSort rowAsc).take n.toNat).map toAbbrev) ∧
    List.Sorted rowAsc (((heightMatches db c hh).insertionSort rowAsc).take n.toNat) ∧
    (∀ r ∈ ((heightMatches db c hh).insertionSort rowAsc).take n.toNat,
      r.channelId = c ∧ hh ≤ r.height) := by
  refine ⟨rfl, rfl, ?_, ?_, ?_⟩
  · have hq : query db c (Cursor.byHeight hh) false n
        = Except.ok (forwardResult
            (((heightMatches db c hh).insertionSort rowAsc).take (n.toNat + 1)) n.toNat) := rfl
    rw [hq]
    simp only [windowOf]
    rw [forwardResult_abbrev]
  · exact List.Pairwise.sublist (List.take_sublist _ _) (sorted_insertionSort_rowAsc _)
  · intro r hr
    have hr2 : r ∈ heightMatches db c hh := by
      have hmem := (List.take_sublist _ _).subset hr
      simpa using hmem
    unfold heightMatches at hr2
    have hpred := (List.mem_filter.mp hr2).2
    simp only [Bool.and_eq_true, beq_iff_eq, decide_eq_true_eq] at hpred
    exact hpred

/-- Witness for C8: the backward rejection at a concrete store. -/
theorem height_cursor_query_witness :
    query dbFive chA (Cursor.byHeight 0) true 1
      = Except.error "Backwards query by height is not supported" :=
  (height_cursor_query dbFive dbKeyVsHash chA 0 1).1

/-! ## Claim C4: continuation cursors -/

/-- C4 is a code bug.  Backward pagination over hashes `[1] .. [5]` (one
channel, equal heights) with limit 2 and anchor `[6]`: the engine fetches
three rows `[5], [4], [3]`, reverses, drops `[3]` from the window — and sets
the backward continuation cursor to `[3]` itself.  The follow-up backward call
filters strictly below `[3]`, so the dropped boundary row `[3]` is returned by
neither call: the continuation does not resume at the dropped row as the claim
(and the spec's pagination-symmetry property) requires; one row is skipped per
page. -/
theorem backward_pagination_skips_boundary :
    windowHashes (query dbFive chA (Cursor.byHash [6]) true 2) = some [[4], [5]] ∧
    backCursorOf (query dbFive chA (Cursor.byHash [6]) true 2) = some (some [3]) ∧
    forwardCursorOf (query dbFive chA (Cursor.byHash [6]) true 2) = some (some [6]) ∧
    windowHashes (query dbFive chA (Cursor.byHash [3]) true 2) = some [[1], [2]] ∧
    backCursorOf (query dbFive chA (Cursor.byHash [3]) true 2) = some none ∧
    [3] ∈ (bwdMatches dbFive chA [6]).map Row.hash := by
  decide
